import Mathlib

/-!
Verification of the chunked remote-inference pipeline of the repository:
the OpenAI Whisper audio chunking/retry loop
(`langchain_community/document_loaders/parsers/audio.py`, `OpenAIWhisperParser`)
and the two Upstage layout-analysis pipelines
(`langchain_upstage/parsers.py` and `langchain_upstage/layout_analysis_parsers.py`).

The definitions below are shallow embeddings of the source code: Python
integers become `ℕ`, the audio duration comparison (`duration_seconds`,
a quotient by 1000) is carried out in `ℚ`, the remote backend is a
parameter (a function from chunk coordinates to a structured response),
and Python exceptions become explicit `Except`/error values.
-/

namespace Spec2Proof

/-! ## Audio pipeline (`audio.py`, `OpenAIWhisperParser.lazy_parse`) -/

namespace Audio

/-- A planned chunk: `index` is the `enumerate` counter (`split_number`),
`start` the offset in milliseconds (`i`), `length` the extent in
milliseconds of `audio[i : i + chunk_duration_ms]`. -/
structure ChunkDescriptor where
  index : ℕ
  start : ℕ
  length : ℕ
deriving DecidableEq, Repr

/-- `chunk_duration_ms = 20 * 60 * 1000` from the source. -/
def chunk_duration_ms : ℕ := 20 * 60 * 1000

/-- The loop header `enumerate(range(0, len(audio), chunk_duration_ms))`
together with the slice `audio[i : i + chunk_duration_ms]`:
`range(0, total, cs)` is the list `[i * cs | i < ⌈total / cs⌉]` and the
slice at `i` has extent `min cs (total - i*cs)`. -/
def planChunks (total cs : ℕ) : List ChunkDescriptor :=
  (List.range ((total + cs - 1) / cs)).map fun i =>
    ⟨i, i * cs, min cs (total - i * cs)⟩

/-- The chunks surviving the guard
`if chunk.duration_seconds <= self.chunk_duration_threshold: continue`;
`duration_seconds` is the millisecond length divided by 1000, the
threshold `th` is in seconds. -/
def keptChunks (total cs : ℕ) (th : ℚ) : List ChunkDescriptor :=
  (planChunks total cs).filter fun c => decide (¬ ((c.length : ℚ) / 1000 ≤ th))

/-- Outcome of the `while attempts < 3` retry loop: the transcript (if any
attempt succeeded), how many invocations were made, and the sleep durations
(`time.sleep(5)` runs after every failed attempt). -/
structure RetryTrace where
  transcript : Option String
  attempts : ℕ
  delays : List ℕ
deriving DecidableEq, Repr

/-- One pass of the `while attempts < 3: try ... except ...` loop.
`invoke k` is the k-th invocation of the transcription call (0-based);
`budget` is the number of attempts still allowed. On success the loop
`break`s; on an exception it increments `attempts`, sleeps 5, and retries. -/
def retryGo (invoke : ℕ → Except String String) : ℕ → ℕ → RetryTrace
  | _, 0 => ⟨none, 0, []⟩
  | k, budget + 1 =>
    match invoke k with
    | .ok t => ⟨some t, 1, []⟩
    | .error _ =>
      let r := retryGo invoke (k + 1) budget
      ⟨r.transcript, r.attempts + 1, 5 :: r.delays⟩

/-- The full retry loop with budget 3 (`while attempts < 3`). -/
def whisperRetry (invoke : ℕ → Except String String) : RetryTrace :=
  retryGo invoke 0 3

/-- The `Document` yielded per transcribed chunk:
`page_content=transcript.text`, metadata `source` and `chunk`. -/
structure AudioRecord where
  content : String
  source : Option String
  chunk : ℕ
deriving DecidableEq, Repr

/-- `OpenAIWhisperParser.lazy_parse` after the audio has been loaded:
iterate over the planned chunks, skip the ones at or below the duration
threshold, run the retry loop, and on success yield a record; when the
retry budget is exhausted the `while/else` branch `continue`s to the next
chunk. `invoke c k` is the k-th transcription attempt for the chunk with
`split_number = c`. -/
def whisperLazyParse (total : ℕ) (th : ℚ) (src : Option String)
    (invoke : ℕ → ℕ → Except String String) : List AudioRecord :=
  (planChunks total chunk_duration_ms).filterMap fun c =>
    if (c.length : ℚ) / 1000 ≤ th then none
    else
      match (whisperRetry (invoke c.index)).transcript with
      | some t => some ⟨t, src, c.index⟩
      | none => none

/-! ### Closed forms and helper lemmas -/

theorem lt_ceil_iff {total cs : ℕ} (hcs : 0 < cs) (i : ℕ) :
    i < (total + cs - 1) / cs ↔ i * cs < total := by
  rcases Nat.eq_zero_or_pos total with h0 | h0
  · subst h0
    have h2 : (0 + cs - 1) / cs = 0 := Nat.div_eq_of_lt (by omega)
    rw [h2]
    exact iff_of_false (Nat.not_lt_zero i) (Nat.not_lt_zero _)
  · have h1 : i < (total + cs - 1) / cs ↔ i + 1 ≤ (total + cs - 1) / cs := Iff.rfl
    rw [h1, Nat.le_div_iff_mul_le hcs, Nat.succ_mul]
    omega

theorem mem_planChunks {total cs : ℕ} (hcs : 0 < cs) (c : ChunkDescriptor) :
    c ∈ planChunks total cs ↔
      c.index * cs < total ∧ c = ⟨c.index, c.index * cs, min cs (total - c.index * cs)⟩ := by
  unfold planChunks
  simp only [List.mem_map, List.mem_range]
  constructor
  · rintro ⟨i, hi, rfl⟩
    exact ⟨(lt_ceil_iff hcs i).mp hi, rfl⟩
  · rintro ⟨hlt, hc⟩
    exact ⟨c.index, (lt_ceil_iff hcs c.index).mpr hlt, hc.symm⟩

end Audio

/-- The document-pipeline page loop
(`for _ in range(n): if start >= n: break; ...; start += step`),
modelled with explicit fuel `n` (the `range(n)` bound). -/
def loopStartsGo (n step : ℕ) : ℕ → ℕ → List ℕ
  | 0, _ => []
  | fuel + 1, s => if n ≤ s then [] else s :: loopStartsGo n step fuel (s + step)

/-- Start pages requested by the document-pipeline loop. -/
def loopStarts (n step : ℕ) : List ℕ := loopStartsGo n step n 0

theorem loopStartsGo_eq (n step : ℕ) (hstep : 0 < step) :
    ∀ fuel s, n - s ≤ fuel →
      loopStartsGo n step fuel s =
        (List.range ((n - s + step - 1) / step)).map fun i => s + i * step := by
  intro fuel
  induction fuel with
  | zero =>
    intro s hs
    have h2 : (n - s + step - 1) / step = 0 := by
      have h1 : n - s = 0 := Nat.le_zero.mp hs
      rw [h1]; exact Nat.div_eq_of_lt (by omega)
    rw [h2]
    rfl
  | succ fuel ih =>
    intro s hs
    by_cases hns : n ≤ s
    · have h2 : (n - s + step - 1) / step = 0 := by
        have h1 : n - s = 0 := by omega
        rw [h1]; exact Nat.div_eq_of_lt (by omega)
      rw [h2]
      simp only [loopStartsGo, if_pos hns, List.range_zero, List.map_nil]
    · have hsn : s < n := by omega
      have hrec : n - (s + step) ≤ fuel := by omega
      have hih := ih (s + step) hrec
      have hd : 1 ≤ n - s := by omega
      have hk : (n - s + step - 1) / step = (n - (s + step) + step - 1) / step + 1 := by
        by_cases hds : step ≤ n - s
        · have e1 : n - s + step - 1 = (n - s - step + step - 1) + step := by omega
          have e2 : n - (s + step) = n - s - step := by omega
          rw [e1, e2, Nat.add_div_right _ hstep]
        · have e1 : n - (s + step) = 0 := by omega
          have e2 : (n - s + step - 1) / step = 1 := by
            have e3 : n - s + step - 1 = (n - s - 1) + step := by omega
            rw [e3, Nat.add_div_right _ hstep, Nat.div_eq_of_lt (by omega)]
          rw [e1, e2, Nat.zero_add, Nat.div_eq_of_lt (by omega)]
      rw [hk]
      simp only [loopStartsGo, hns, if_false]
      rw [hih, List.range_succ_eq_map, List.map_cons, List.map_map]
      refine congrArg₂ _ (by omega) ?_
      apply List.map_congr_left
      intro i _
      simp only [Function.comp_apply, Nat.succ_mul, Nat.succ_eq_add_one]
      ring

theorem loopStarts_eq (n step : ℕ) (hstep : 0 < step) :
    loopStarts n step = (List.range ((n + step - 1) / step)).map fun i => i * step := by
  unfold loopStarts
  rw [loopStartsGo_eq n step hstep n 0 (by omega)]
  simp

/-- C4: the chunk plan. Every planned descriptor has `start = index * cs`
and `length = min cs (total - start)`; an index `i` is planned iff
`i * cs < total`; the descriptors are pairwise non-overlapping with
strictly increasing starts; consecutive descriptors are contiguous; their
ranges cover exactly `[0, total)`; and the document-pipeline page loop
visits exactly the planned starts. -/
theorem chunk_plan_coverage (total cs : ℕ) (hcs : 0 < cs) :
    (∀ c ∈ Audio.planChunks total cs,
        c.start = c.index * cs ∧ c.length = min cs (total - c.start) ∧ c.start < total) ∧
    (∀ i, (∃ c ∈ Audio.planChunks total cs, c.index = i) ↔ i * cs < total) ∧
    (Audio.planChunks total cs).Pairwise
      (fun a b => a.start + a.length ≤ b.start ∧ a.start < b.start) ∧
    (Audio.planChunks total cs).Chain' (fun a b => a.start + a.length = b.start) ∧
    (∀ x, (∃ c ∈ Audio.planChunks total cs, c.start ≤ x ∧ x < c.start + c.length) ↔
        x < total) ∧
    loopStarts total cs = (Audio.planChunks total cs).map Audio.ChunkDescriptor.start := by
  refine ⟨?_, ?_, ?_, ?_, ?_, ?_⟩
  · intro c hc
    obtain ⟨hlt, hc⟩ := (Audio.mem_planChunks hcs c).mp hc
    rw [hc]
    exact ⟨rfl, rfl, hlt⟩
  · intro i
    constructor
    · rintro ⟨c, hc, rfl⟩
      exact ((Audio.mem_planChunks hcs c).mp hc).1
    · intro hlt
      exact ⟨⟨i, i * cs, min cs (total - i * cs)⟩,
        (Audio.mem_planChunks hcs _).mpr ⟨hlt, rfl⟩, rfl⟩
  · unfold Audio.planChunks
    rw [List.pairwise_map]
    refine (List.pairwise_lt_range _).imp ?_
    intro i j hij
    have h1 : (i + 1) * cs ≤ j * cs := Nat.mul_le_mul_right cs (by omega)
    rw [Nat.succ_mul] at h1
    refine ⟨?_, ?_⟩
    · show i * cs + min cs (total - i * cs) ≤ j * cs
      have h2 : min cs (total - i * cs) ≤ cs := Nat.min_le_left _ _
      omega
    · show i * cs < j * cs
      omega
  · unfold Audio.planChunks
    rw [List.chain'_map]
    rcases Nat.eq_zero_or_pos ((total + cs - 1) / cs) with h0 | h0
    · rw [h0]; simp
    · obtain ⟨k, hk⟩ : ∃ k, (total + cs - 1) / cs = k + 1 := ⟨_, (Nat.succ_pred_eq_of_pos h0).symm⟩
      rw [hk, List.chain'_range_succ]
      intro m hm
      have hm1 : (m + 1) * cs < total := by
        have hmk : m + 1 < (total + cs - 1) / cs := by omega
        exact (Audio.lt_ceil_iff hcs (m + 1)).mp hmk
      show m * cs + min cs (total - m * cs) = (m + 1) * cs
      rw [Nat.succ_mul] at hm1 ⊢
      omega
  · intro x
    constructor
    · rintro ⟨c, hc, hcx, hxc⟩
      obtain ⟨hlt, hceq⟩ := (Audio.mem_planChunks hcs c).mp hc
      rw [hceq] at hxc
      simp only at hxc
      omega
    · intro hx
      refine ⟨⟨x / cs, (x / cs) * cs, min cs (total - (x / cs) * cs)⟩,
        (Audio.mem_planChunks hcs _).mpr ⟨?_, rfl⟩, ?_, ?_⟩
      · show x / cs * cs < total
        have := Nat.div_mul_le_self x cs
        omega
      · exact Nat.div_mul_le_self x cs
      · show x < x / cs * cs + min cs (total - x / cs * cs)
        have h1 : x % cs < cs := Nat.mod_lt x hcs
        have h2 : cs * (x / cs) + x % cs = x := Nat.div_add_mod x cs
        have h3 : x / cs * cs = cs * (x / cs) := Nat.mul_comm _ _
        omega
  · rw [loopStarts_eq total cs hcs]
    unfold Audio.planChunks
    rw [List.map_map]
    rfl

/-- Witness for `chunk_plan_coverage` at `total = 45`, `cs = 20`
(the spec's 45-minute / 20-minute scenario, scaled): chunks at
0, 20, 40 of lengths 20, 20, 5. -/
theorem chunk_plan_coverage_witness :
    (0 < 20) ∧
    (∀ x, (∃ c ∈ Audio.planChunks 45 20, c.start ≤ x ∧ x < c.start + c.length) ↔ x < 45) :=
  ⟨by decide, (chunk_plan_coverage 45 20 (by decide)).2.2.2.2.1⟩

/-- C3: the minimum-size filter drops a planned chunk iff its duration in
seconds (`length / 1000`) is `≤` the threshold; in particular a chunk
exactly at the threshold is dropped and a chunk strictly above it is kept. -/
theorem min_size_threshold_strict (total cs : ℕ) (th : ℚ) (c : Audio.ChunkDescriptor)
    (hc : c ∈ Audio.planChunks total cs) :
    (c ∉ Audio.keptChunks total cs th ↔ (c.length : ℚ) / 1000 ≤ th) ∧
    ((c.length : ℚ) / 1000 = th → c ∉ Audio.keptChunks total cs th) ∧
    (th < (c.length : ℚ) / 1000 → c ∈ Audio.keptChunks total cs th) := by
  have hmem : c ∈ Audio.keptChunks total cs th ↔ ¬ ((c.length : ℚ) / 1000 ≤ th) := by
    unfold Audio.keptChunks
    rw [List.mem_filter]
    simp [hc]
  have hiff : c ∉ Audio.keptChunks total cs th ↔ (c.length : ℚ) / 1000 ≤ th := by
    constructor
    · intro hnot
      by_contra hle
      exact hnot (hmem.mpr hle)
    · intro hle hin
      exact (hmem.mp hin) hle
  exact ⟨hiff, fun heq => hiff.mpr (le_of_eq heq),
    fun hlt => hmem.mpr (not_le.mpr hlt)⟩

/-- Witness for `min_size_threshold_strict`: a 100 ms chunk with a 0.1 s
threshold sits exactly at the boundary and is dropped. -/
theorem min_size_threshold_strict_witness :
    (⟨0, 0, 100⟩ : Audio.ChunkDescriptor) ∈ Audio.planChunks 100 100 ∧
    (⟨0, 0, 100⟩ : Audio.ChunkDescriptor) ∉ Audio.keptChunks 100 100 (1 / 10) :=
  ⟨by decide,
   (min_size_threshold_strict 100 100 (1 / 10) ⟨0, 0, 100⟩ (by decide)).2.1 (by norm_num)⟩

namespace Audio

theorem retry_fail_fail_ok (invoke : ℕ → Except String String) (e₁ e₂ t : String)
    (h0 : invoke 0 = .error e₁) (h1 : invoke 1 = .error e₂) (h2 : invoke 2 = .ok t) :
    whisperRetry invoke = ⟨some t, 3, [5, 5]⟩ := by
  simp [whisperRetry, retryGo, h0, h1, h2]

theorem retry_all_fail (invoke : ℕ → Except String String) (e₁ e₂ e₃ : String)
    (h0 : invoke 0 = .error e₁) (h1 : invoke 1 = .error e₂) (h2 : invoke 2 = .error e₃) :
    whisperRetry invoke = ⟨none, 3, [5, 5, 5]⟩ := by
  simp [whisperRetry, retryGo, h0, h1, h2]

theorem mem_whisperLazyParse_of_success {total : ℕ} {th : ℚ} {src : Option String}
    {invoke : ℕ → ℕ → Except String String} {c : ChunkDescriptor} {t : String}
    (hc : c ∈ planChunks total chunk_duration_ms)
    (hkept : ¬ ((c.length : ℚ) / 1000 ≤ th))
    (hok : (whisperRetry (invoke c.index)).transcript = some t) :
    (⟨t, src, c.index⟩ : AudioRecord) ∈ whisperLazyParse total th src invoke := by
  unfold whisperLazyParse
  rw [List.mem_filterMap]
  refine ⟨c, hc, ?_⟩
  rw [if_neg hkept, hok]

end Audio

/-- C1: the remote whisper invocation for a chunk above the duration
threshold. If the first two attempts raise and the third succeeds, the
retry loop makes exactly 3 attempts with a 5-second sleep after each of
the two failures, and a record for the chunk is yielded. If all three
attempts raise, the loop makes 3 attempts (sleeping 5 after each), the
chunk is skipped — no record carries its index, no exception escapes
(`whisperLazyParse` is total) — and every other above-threshold chunk
whose retry succeeded still yields its record. -/
theorem whisper_retry_skip_policy (total : ℕ) (th : ℚ) (src : Option String)
    (invoke : ℕ → ℕ → Except String String) (c : Audio.ChunkDescriptor)
    (hc : c ∈ Audio.planChunks total Audio.chunk_duration_ms)
    (hkept : ¬ ((c.length : ℚ) / 1000 ≤ th)) :
    (∀ e₁ e₂ t, invoke c.index 0 = .error e₁ → invoke c.index 1 = .error e₂ →
        invoke c.index 2 = .ok t →
        Audio.whisperRetry (invoke c.index) = ⟨some t, 3, [5, 5]⟩ ∧
        (⟨t, src, c.index⟩ : Audio.AudioRecord) ∈
          Audio.whisperLazyParse total th src invoke) ∧
    ((∀ k, k < 3 → ∃ e, invoke c.index k = .error e) →
        Audio.whisperRetry (invoke c.index) = ⟨none, 3, [5, 5, 5]⟩ ∧
        (∀ r ∈ Audio.whisperLazyParse total th src invoke, r.chunk ≠ c.index) ∧
        (∀ c' ∈ Audio.planChunks total Audio.chunk_duration_ms, ∀ t,
          ¬ ((c'.length : ℚ) / 1000 ≤ th) →
          (Audio.whisperRetry (invoke c'.index)).transcript = some t →
          (⟨t, src, c'.index⟩ : Audio.AudioRecord) ∈
            Audio.whisperLazyParse total th src invoke)) := by
  constructor
  · intro e₁ e₂ t h0 h1 h2
    have hr := Audio.retry_fail_fail_ok (invoke c.index) e₁ e₂ t h0 h1 h2
    refine ⟨hr, Audio.mem_whisperLazyParse_of_success hc hkept ?_⟩
    rw [hr]
  · intro hfail
    obtain ⟨e₁, h0⟩ := hfail 0 (by omega)
    obtain ⟨e₂, h1⟩ := hfail 1 (by omega)
    obtain ⟨e₃, h2⟩ := hfail 2 (by omega)
    have hr := Audio.retry_all_fail (invoke c.index) e₁ e₂ e₃ h0 h1 h2
    refine ⟨hr, ?_, ?_⟩
    · intro r hr'
      unfold Audio.whisperLazyParse at hr'
      rw [List.mem_filterMap] at hr'
      obtain ⟨c', _, hfc⟩ := hr'
      by_cases hk : (c'.length : ℚ) / 1000 ≤ th
      · rw [if_pos hk] at hfc
        exact absurd hfc (by simp)
      · rw [if_neg hk] at hfc
        intro hchunk
        rcases hok : (Audio.whisperRetry (invoke c'.index)).transcript with _ | t
        · rw [hok] at hfc
          exact absurd hfc (by simp)
        · rw [hok] at hfc
          have : r.chunk = c'.index := by
            cases hfc2 : hfc
            all_goals simp_all
          rw [this] at hchunk
          rw [hchunk, hr] at hok
          exact absurd hok (by simp)
    · intro c' hc' t hkept' hok
      exact Audio.mem_whisperLazyParse_of_success hc' hkept' hok

/-! ## Upstage layout-analysis pipelines
(`parsers.py` and `layout_analysis_parsers.py`, `LayoutAnalysisParser`) -/

namespace LA

/-- The `Literal["text", "html"]` output-type configuration. -/
inductive OutputType
  | text
  | html
deriving DecidableEq, Repr

/-- A layout element of the backend response, carrying the JSON fields
`page`, `id`, `text`, `html`. -/
structure Element where
  page : ℕ
  id : ℕ
  text : String
  html : String
deriving DecidableEq, Repr

/-- The JSON response of the layout analyzer: `text`/`html` for the whole
chunk, the `elements` array, and `billed_pages`. -/
structure Response where
  text : String
  html : String
  elements : List Element
  billed_pages : ℕ
deriving DecidableEq, Repr

/-- `parse_output(data, output_type)` applied to the whole response. -/
def Response.parsed (r : Response) : OutputType → String
  | .text => r.text
  | .html => r.html

/-- `parse_output(element, output_type)` applied to one element. -/
def Element.parsed (e : Element) : OutputType → String
  | .text => e.text
  | .html => e.html

/-- A yielded `Document`: `content` is `page_content`; the optional
fields are the metadata keys present in the respective mode (`page`,
`id`, `total_pages`), plus the always-present `type` and `split`. -/
structure Record where
  content : String
  page : Option ℕ := none
  id : Option ℕ := none
  total_pages : Option ℕ := none
  rtype : OutputType
  split : String
deriving DecidableEq, Repr

/-- Python `sorted(set(l))` for naturals: the ascending list of distinct
members of `l`. -/
def sortedDistinct (l : List ℕ) : List ℕ :=
  (List.range (l.foldr max 0 + 1)).filter fun x => decide (x ∈ l)

/-- `_page_document`: compute `sorted(set(pages))`, group the elements by
page in input order, join each group's parsed outputs with a single
space, and take the metadata page number from the group's first element
(`group[0]["page"]`). -/
def pageDocument (els : List Element) (ot : OutputType) (split : String) :
    List Record :=
  (sortedDistinct (els.map (·.page))).map fun p =>
    let group := els.filter fun e => decide (e.page = p)
    { content := String.intercalate " " (group.map (·.parsed ot)),
      page := some (group.head?.elim 0 (·.page)),
      rtype := ot, split := split }

/-- `_element_document`. -/
def elementDocument (e : Element) (ot : OutputType) (split : String) : Record :=
  { content := e.parsed ot, page := some e.page, id := some e.id,
    rtype := ot, split := split }

/-- The opened input document: `full_docs.is_pdf` and
`full_docs.page_count` as reported by the PDF library. -/
structure PInput where
  is_pdf : Bool
  page_count : ℕ
deriving DecidableEq, Repr

/-- Python runtime failures escaping `lazy_parse`. -/
inductive PyErr
  | unboundLocal
  | valueError (msg : String)
deriving DecidableEq, Repr

instance {ε α : Type} [DecidableEq ε] [DecidableEq α] : DecidableEq (Except ε α) :=
  fun a b =>
    match a, b with
    | .error e₁, .error e₂ =>
      if h : e₁ = e₂ then isTrue (by rw [h]) else isFalse fun hh => h (by cases hh; rfl)
    | .error _, .ok _ => isFalse fun hh => Except.noConfusion hh
    | .ok _, .error _ => isFalse fun hh => Except.noConfusion hh
    | .ok a₁, .ok a₂ =>
      if h : a₁ = a₂ then isTrue (by rw [h]) else isFalse fun hh => h (by cases hh; rfl)

/-- Result of forcing the `lazy_parse` generator: the number of remote
calls made, and either the yielded records or the exception raised. -/
structure RunResult where
  calls : ℕ
  output : Except PyErr (List Record)
deriving DecidableEq, Repr

end LA

namespace UP

/-- `LayoutAnalysisParser.lazy_parse` of `parsers.py`. `inp` is the
opened document; `backend s b` is the parsed JSON response of
`_split_and_request(full_docs, s, b)`; `fileBackend` the response for the
whole file posted directly (non-PDF branch); `split_pages` the page-batch
parameter of `lazy_parse`. In "none" mode the loop uses
`LIMIT_OF_PAGE_REQUEST = 10` and the final yield reads
`response["billed_pages"]` — a name never bound when the loop body ran
zero times, which raises an unbound-local error. -/
def lazyParse (inp : LA.PInput) (backend : ℕ → ℕ → LA.Response)
    (fileBackend : LA.Response) (ot : LA.OutputType) (split : String)
    (split_pages : ℕ) : LA.RunResult :=
  if split = "none" then
    if inp.is_pdf then
      let starts := loopStarts inp.page_count 10
      let step := starts.foldl
        (fun acc s => (acc.1 ++ (backend s 10).parsed ot, some (backend s 10)))
        ("", (none : Option LA.Response))
      { calls := starts.length,
        output :=
          match step.2 with
          | none => .error .unboundLocal
          | some r => .ok [{ content := step.1,
                             total_pages := some r.billed_pages,
                             rtype := ot, split := split }] }
    else
      { calls := 1,
        output := .ok [{ content := fileBackend.parsed ot,
                         total_pages := some fileBackend.billed_pages,
                         rtype := ot, split := split }] }
  else if split = "element" then
    if inp.is_pdf then
      let starts := loopStarts inp.page_count split_pages
      { calls := starts.length,
        output := .ok (starts.flatMap fun s =>
          (backend s split_pages).elements.map fun e =>
            LA.elementDocument e ot split) }
    else
      { calls := 1,
        output := .ok (fileBackend.elements.map fun e =>
          LA.elementDocument e ot split) }
  else if split = "page" then
    if inp.is_pdf then
      let starts := loopStarts inp.page_count split_pages
      { calls := starts.length,
        output := .ok (starts.flatMap fun s =>
          LA.pageDocument (backend s split_pages).elements ot split) }
    else
      { calls := 1,
        output := .ok (LA.pageDocument fileBackend.elements ot split) }
  else
    { calls := 0, output := .error (.valueError ("Invalid split type: " ++ split)) }

end UP

namespace UPL

/-- `LayoutAnalysisParser.lazy_parse` of `layout_analysis_parsers.py`.
Differs from the `parsers.py` version in "none" mode: the single yield
reports `total_pages = number_of_pages` (the document's own page count)
in both branches and does not touch the last response, so a zero-page
document still yields one record with empty content. -/
def lazyParse (inp : LA.PInput) (backend : ℕ → ℕ → LA.Response)
    (fileBackend : LA.Response) (ot : LA.OutputType) (split : String)
    (page_batch_size : ℕ) : LA.RunResult :=
  if split = "none" then
    if inp.is_pdf then
      let starts := loopStarts inp.page_count 10
      { calls := starts.length,
        output := .ok [{
          content := starts.foldl (fun acc s => acc ++ (backend s 10).parsed ot) "",
          total_pages := some inp.page_count,
          rtype := ot, split := split }] }
    else
      { calls := 1,
        output := .ok [{ content := fileBackend.parsed ot,
                         total_pages := some inp.page_count,
                         rtype := ot, split := split }] }
  else if split = "element" then
    if inp.is_pdf then
      let starts := loopStarts inp.page_count page_batch_size
      { calls := starts.length,
        output := .ok (starts.flatMap fun s =>
          (backend s page_batch_size).elements.map fun e =>
            LA.elementDocument e ot split) }
    else
      { calls := 1,
        output := .ok (fileBackend.elements.map fun e =>
          LA.elementDocument e ot split) }
  else if split = "page" then
    if inp.is_pdf then
      let starts := loopStarts inp.page_count page_batch_size
      { calls := starts.length,
        output := .ok (starts.flatMap fun s =>
          LA.pageDocument (backend s page_batch_size).elements ot split) }
    else
      { calls := 1,
        output := .ok (LA.pageDocument fileBackend.elements ot split) }
  else
    { calls := 0, output := .error (.valueError ("Invalid split type: " ++ split)) }

/-- Outcome of the `try` body of `_get_response`
(`layout_analysis_parsers.py`): the HTTP layer raised a
`requests.RequestException` (including `raise_for_status` on an error
status), or JSON decoding of the body failed, or a response was parsed. -/
inductive PostOutcome
  | reqException (msg : String)
  | jsonDecodeError (msg : String)
  | ok (r : LA.Response)

/-- How a call to `_get_response` terminates. -/
inductive GetOutcome
  | returned (r : LA.Response)
  | unboundLocalError
  | valueError (msg : String)
deriving DecidableEq, Repr

/-- A `_get_response` call: its termination, whether the posted
`document` handle was closed, and what was printed. -/
structure GetRun where
  outcome : GetOutcome
  fileClosed : Bool
  logs : List String
deriving DecidableEq, Repr

/-- `_get_response` of `layout_analysis_parsers.py`: the
`except requests.RequestException` clause only prints, after which
control reaches `return result` with `result` never assigned (an
unbound-local error); the `except json.JSONDecodeError` clause prints and
re-raises `ValueError`; the `finally` block closes the document handle on
every path. -/
def getResponse (post : PostOutcome) : GetRun :=
  match post with
  | .reqException m =>
    { outcome := .unboundLocalError, fileClosed := true,
      logs := ["Request Exception: " ++ m] }
  | .jsonDecodeError m =>
    { outcome := .valueError ("Failed to decode JSON response: " ++ m),
      fileClosed := true, logs := ["JSON Decode Error: " ++ m] }
  | .ok r =>
    { outcome := .returned r, fileClosed := true, logs := [] }

end UPL

namespace LayoutAnalysis

/-- `LayoutAnalysis.load` (`layout_analysis.py`): forces the
`parsers.py` parser with `split_pages = LIMIT_OF_PAGE_REQUEST = 10`. -/
def load (inp : LA.PInput) (backend : ℕ → ℕ → LA.Response)
    (fileBackend : LA.Response) (ot : LA.OutputType) (split : String) :
    LA.RunResult :=
  UP.lazyParse inp backend fileBackend ot split 10

/-- `LayoutAnalysis.lazy_load`: delegates with the parser's default
`split_pages = 1`. -/
def lazyLoad (inp : LA.PInput) (backend : ℕ → ℕ → LA.Response)
    (fileBackend : LA.Response) (ot : LA.OutputType) (split : String) :
    LA.RunResult :=
  UP.lazyParse inp backend fileBackend ot split 1

end LayoutAnalysis

/-- Witness for `whisper_retry_skip_policy`: a 1 ms input with threshold 0
yields one above-threshold chunk; an invoker failing twice then succeeding
produces the chunk's record, an always-failing invoker produces none. -/
theorem whisper_retry_skip_policy_witness :
    ((⟨"T", some "s", 0⟩ : Audio.AudioRecord) ∈
        Audio.whisperLazyParse 1 0 (some "s")
          (fun _ k => if k = 2 then .ok "T" else .error "E")) ∧
    (∀ r ∈ Audio.whisperLazyParse 1 0 (some "s") (fun _ _ => .error "E"),
        r.chunk ≠ 0) :=
  ⟨((whisper_retry_skip_policy 1 0 (some "s")
        (fun _ k => if k = 2 then .ok "T" else .error "E") ⟨0, 0, 1⟩
        (by decide) (by norm_num)).1 "E" "E" "T" rfl rfl rfl).2,
   ((whisper_retry_skip_policy 1 0 (some "s") (fun _ _ => .error "E") ⟨0, 0, 1⟩
        (by decide) (by norm_num)).2 (fun k _ => ⟨"E", rfl⟩)).2.1⟩

/-! ### String concatenation helpers -/

theorem string_foldl_append (xs : List String) :
    ∀ init : String, xs.foldl (· ++ ·) init = init ++ String.join xs := by
  induction xs with
  | nil => intro init; simp [String.join, String.append_empty]
  | cons x xs ih =>
    intro init
    have h1 : String.join (x :: xs) = x ++ String.join xs := by
      show (x :: xs).foldl (· ++ ·) "" = x ++ String.join xs
      rw [List.foldl_cons, ih ("" ++ x), String.empty_append]
    rw [List.foldl_cons, ih (init ++ x), h1, String.append_assoc]

theorem join_cons (x : String) (xs : List String) :
    String.join (x :: xs) = x ++ String.join xs := by
  show (x :: xs).foldl (· ++ ·) "" = x ++ String.join xs
  rw [List.foldl_cons, string_foldl_append xs ("" ++ x), String.empty_append]

theorem foldl_append_join (f : ℕ → String) (l : List ℕ) :
    ∀ init : String, l.foldl (fun acc s => acc ++ f s) init =
      init ++ String.join (l.map f) := by
  induction l with
  | nil => intro init; simp [String.join, String.append_empty]
  | cons a as ih =>
    intro init
    rw [List.foldl_cons, ih (init ++ f a), List.map_cons, join_cons,
      String.append_assoc]

/-- The `parsers.py` "none"-mode loop state: concatenated result and
the last response seen. -/
theorem pair_foldl_fst (f : ℕ → String) (resp : ℕ → LA.Response) (l : List ℕ) :
    ∀ (init : String) (o : Option LA.Response),
      (l.foldl (fun acc s => (acc.1 ++ f s, some (resp s))) (init, o)).1 =
        init ++ String.join (l.map f) := by
  induction l with
  | nil => intro init o; simp [String.join, String.append_empty]
  | cons a as ih =>
    intro init o
    rw [List.foldl_cons, ih (init ++ f a), List.map_cons, join_cons,
      String.append_assoc]

theorem pair_foldl_snd_isSome (f : ℕ → String) (resp : ℕ → LA.Response) :
    ∀ (l : List ℕ) (init : String) (o : Option LA.Response), l ≠ [] →
      ∃ r, (l.foldl (fun acc s => (acc.1 ++ f s, some (resp s))) (init, o)).2 = some r := by
  intro l
  induction l with
  | nil => intro _ _ h; exact absurd rfl h
  | cons a as ih =>
    intro init o _
    rw [List.foldl_cons]
    rcases as with _ | ⟨b, bs⟩
    · exact ⟨resp a, rfl⟩
    · exact ih _ _ (by simp)

theorem loopStarts_ne_nil (n step : ℕ) (hn : 1 ≤ n) : loopStarts n step ≠ [] := by
  unfold loopStarts
  obtain ⟨m, rfl⟩ : ∃ m, n = m + 1 := ⟨n - 1, by omega⟩
  show loopStartsGo (m + 1) step (m + 1) 0 ≠ []
  simp only [loopStartsGo]
  rw [if_neg (by omega)]
  simp

/-- C7: any split value other than `"none"`, `"element"`, `"page"` makes
`lazy_parse` raise `ValueError` ("Invalid split type") with zero remote
calls and no yielded record, in both implementations. -/
theorem invalid_split_fails_fast (inp : LA.PInput) (backend : ℕ → ℕ → LA.Response)
    (fileBackend : LA.Response) (ot : LA.OutputType) (batch : ℕ) (split : String)
    (h1 : split ≠ "none") (h2 : split ≠ "element") (h3 : split ≠ "page") :
    UP.lazyParse inp backend fileBackend ot split batch =
      ⟨0, .error (.valueError ("Invalid split type: " ++ split))⟩ ∧
    UPL.lazyParse inp backend fileBackend ot split batch =
      ⟨0, .error (.valueError ("Invalid split type: " ++ split))⟩ := by
  refine ⟨?_, ?_⟩
  · unfold UP.lazyParse
    rw [if_neg h1, if_neg h2, if_neg h3]
  · unfold UPL.lazyParse
    rw [if_neg h1, if_neg h2, if_neg h3]

/-- Witness for `invalid_split_fails_fast` at split `"foo"`. -/
theorem invalid_split_fails_fast_witness :
    UP.lazyParse ⟨true, 25⟩ (fun _ _ => ⟨"", "", [], 0⟩) ⟨"", "", [], 0⟩
        .text "foo" 10 =
      ⟨0, .error (.valueError ("Invalid split type: " ++ "foo"))⟩ :=
  (invalid_split_fails_fast ⟨true, 25⟩ (fun _ _ => ⟨"", "", [], 0⟩)
    ⟨"", "", [], 0⟩ .text 10 "foo" (by decide) (by decide) (by decide)).1

/-- C6: "none" mode on a non-PDF (non-document) input: exactly one
remote call and exactly one record. Its `total_pages` metadata is the
backend's `billed_pages` in `parsers.py` and the document's reported page
count in `layout_analysis_parsers.py`; both equal 1 for an image input,
which the PDF library opens as a one-page document and the backend bills
as one page. -/
theorem none_mode_non_document (inp : LA.PInput) (backend : ℕ → ℕ → LA.Response)
    (fileBackend : LA.Response) (ot : LA.OutputType) (batch : ℕ)
    (hpdf : inp.is_pdf = false) (hpc : inp.page_count = 1)
    (hbill : fileBackend.billed_pages = 1) :
    UP.lazyParse inp backend fileBackend ot "none" batch =
      ⟨1, .ok [{ content := fileBackend.parsed ot, total_pages := some 1,
                 rtype := ot, split := "none" }]⟩ ∧
    UPL.lazyParse inp backend fileBackend ot "none" batch =
      ⟨1, .ok [{ content := fileBackend.parsed ot, total_pages := some 1,
                 rtype := ot, split := "none" }]⟩ := by
  refine ⟨?_, ?_⟩
  · unfold UP.lazyParse
    rw [if_pos rfl, hpdf, hbill]
    rfl
  · unfold UPL.lazyParse
    rw [if_pos rfl, hpdf, hpc]
    rfl

/-- Witness for `none_mode_non_document`: a one-page non-PDF input with a
backend billing one page. -/
theorem none_mode_non_document_witness :
    UP.lazyParse ⟨false, 1⟩ (fun _ _ => ⟨"", "", [], 0⟩) ⟨"body", "b", [], 1⟩
        .text "none" 1 =
      ⟨1, .ok [{ content := "body", total_pages := some 1,
                 rtype := .text, split := "none" }]⟩ :=
  (none_mode_non_document ⟨false, 1⟩ (fun _ _ => ⟨"", "", [], 0⟩)
    ⟨"body", "b", [], 1⟩ .text 1 rfl rfl rfl).1

/-- C2 counterexample: on a zero-page PDF — an input all of whose (zero)
chunk invocations succeed — `parsers.py` "none" mode yields no record at
all: the final `response["billed_pages"]` read raises an unbound-local
error. -/
theorem whole_mode_zero_pages_cex :
    UP.lazyParse ⟨true, 0⟩ (fun _ _ => ⟨"", "", [], 0⟩) ⟨"", "", [], 0⟩
        .text "none" 1 =
      ⟨0, .error .unboundLocal⟩ := by
  rfl

/-- C2 (amended): in "none" mode, a run whose chunk invocations all
succeed yields exactly one record whose content is the concatenation, in
ascending chunk order, of the parsed per-chunk outputs, produced only
after all chunks were requested — unconditionally for
`layout_analysis_parsers.py`, and for any PDF with at least one page for
`parsers.py` (on a zero-page PDF the latter raises an unbound-local
error, `whole_mode_zero_pages_cex`). A non-PDF input yields one record
holding the single response's parsed output. -/
theorem whole_mode_single_record (n : ℕ) (backend : ℕ → ℕ → LA.Response)
    (fileBackend : LA.Response) (ot : LA.OutputType) (batch : ℕ) :
    (UPL.lazyParse ⟨true, n⟩ backend fileBackend ot "none" batch =
      ⟨(loopStarts n 10).length,
       .ok [{ content := String.join ((loopStarts n 10).map fun s => (backend s 10).parsed ot),
              total_pages := some n, rtype := ot, split := "none" }]⟩) ∧
    (1 ≤ n → ∃ tp,
      UP.lazyParse ⟨true, n⟩ backend fileBackend ot "none" batch =
        ⟨(loopStarts n 10).length,
         .ok [{ content := String.join ((loopStarts n 10).map fun s => (backend s 10).parsed ot),
                total_pages := some tp, rtype := ot, split := "none" }]⟩) ∧
    (∀ inp : LA.PInput, inp.is_pdf = false →
      UP.lazyParse inp backend fileBackend ot "none" batch =
        ⟨1, .ok [{ content := fileBackend.parsed ot,
                   total_pages := some fileBackend.billed_pages,
                   rtype := ot, split := "none" }]⟩ ∧
      UPL.lazyParse inp backend fileBackend ot "none" batch =
        ⟨1, .ok [{ content := fileBackend.parsed ot,
                   total_pages := some inp.page_count,
                   rtype := ot, split := "none" }]⟩) := by
  refine ⟨?_, ?_, ?_⟩
  · unfold UPL.lazyParse
    rw [if_pos rfl]
    show LA.RunResult.mk _ _ = _
    have hcontent := foldl_append_join (fun s => (backend s 10).parsed ot)
      (loopStarts n 10) ""
    rw [String.empty_append] at hcontent
    simp only [hcontent]
  · intro hn
    obtain ⟨r, hr⟩ := pair_foldl_snd_isSome (fun s => (backend s 10).parsed ot)
      (fun s => backend s 10) (loopStarts n 10) "" none (loopStarts_ne_nil n 10 hn)
    refine ⟨r.billed_pages, ?_⟩
    unfold UP.lazyParse
    rw [if_pos rfl]
    show LA.RunResult.mk _ _ = _
    rw [hr]
    have hcontent := pair_foldl_fst (fun s => (backend s 10).parsed ot)
      (fun s => backend s 10) (loopStarts n 10) "" none
    rw [String.empty_append] at hcontent
    simp only [hcontent]
  · intro inp hpdf
    refine ⟨?_, ?_⟩
    · unfold UP.lazyParse
      rw [if_pos rfl, hpdf]
      rfl
    · unfold UPL.lazyParse
      rw [if_pos rfl, hpdf]
      rfl

/-- Witness for `whole_mode_single_record`: a two-page PDF whose chunks
answer "A" (and a non-PDF input). -/
theorem whole_mode_single_record_witness :
    (∃ tp, UP.lazyParse ⟨true, 2⟩ (fun _ _ => ⟨"A", "H", [], 2⟩) ⟨"", "", [], 0⟩
        .text "none" 1 =
      ⟨(loopStarts 2 10).length,
       .ok [{ content := String.join ((loopStarts 2 10).map fun _ => "A"),
              total_pages := some tp, rtype := .text, split := "none" }]⟩) :=
  (whole_mode_single_record 2 (fun _ _ => ⟨"A", "H", [], 2⟩) ⟨"", "", [], 0⟩
    .text 1).2.1 (by decide)

/-- C8 counterexample: a zero-extent input does not always yield an empty
output sequence: "none" mode in `layout_analysis_parsers.py` on a
zero-page PDF yields one record. -/
theorem zero_extent_cex :
    (UPL.lazyParse ⟨true, 0⟩ (fun _ _ => ⟨"", "", [], 0⟩) ⟨"", "", [], 0⟩
        .text "none" 1).output =
      .ok [{ content := "", total_pages := some 0,
             rtype := .text, split := "none" }] ∧
    (UPL.lazyParse ⟨true, 0⟩ (fun _ _ => ⟨"", "", [], 0⟩) ⟨"", "", [], 0⟩
        .text "none" 1).output ≠ .ok [] := by
  exact ⟨rfl, by decide⟩

/-- C8 (amended): a zero-extent input (zero duration, zero pages) yields
an empty chunk plan everywhere, an empty output sequence and no error in
the audio pipeline and in the "element"/"page" document modes; in "none"
mode, however, `layout_analysis_parsers.py` yields one record with empty
content and `total_pages` 0, and `parsers.py` raises an unbound-local
error. -/
theorem zero_extent_behavior (cs : ℕ) (th : ℚ) (src : Option String)
    (invoke : ℕ → ℕ → Except String String) (backend : ℕ → ℕ → LA.Response)
    (fileBackend : LA.Response) (ot : LA.OutputType) (batch : ℕ)
    (hcs : 0 < cs) :
    Audio.planChunks 0 cs = [] ∧
    Audio.keptChunks 0 cs th = [] ∧
    Audio.whisperLazyParse 0 th src invoke = [] ∧
    loopStarts 0 batch = [] ∧
    UP.lazyParse ⟨true, 0⟩ backend fileBackend ot "element" batch = ⟨0, .ok []⟩ ∧
    UP.lazyParse ⟨true, 0⟩ backend fileBackend ot "page" batch = ⟨0, .ok []⟩ ∧
    UPL.lazyParse ⟨true, 0⟩ backend fileBackend ot "element" batch = ⟨0, .ok []⟩ ∧
    UPL.lazyParse ⟨true, 0⟩ backend fileBackend ot "page" batch = ⟨0, .ok []⟩ ∧
    UPL.lazyParse ⟨true, 0⟩ backend fileBackend ot "none" batch =
      ⟨0, .ok [{ content := "", total_pages := some 0,
                 rtype := ot, split := "none" }]⟩ ∧
    UP.lazyParse ⟨true, 0⟩ backend fileBackend ot "none" batch =
      ⟨0, .error .unboundLocal⟩ := by
  have hplan : Audio.planChunks 0 cs = [] := by
    unfold Audio.planChunks
    rw [Nat.div_eq_of_lt (by omega)]
    rfl
  have hplan2 : Audio.planChunks 0 Audio.chunk_duration_ms = [] := by
    unfold Audio.planChunks
    rw [Nat.div_eq_of_lt (by unfold Audio.chunk_duration_ms; omega)]
    rfl
  refine ⟨hplan, ?_, ?_, rfl, rfl, rfl, rfl, rfl, rfl, rfl⟩
  · unfold Audio.keptChunks
    rw [hplan]
    rfl
  · unfold Audio.whisperLazyParse
    rw [hplan2]
    rfl

/-- Witness for `zero_extent_behavior` at concrete arguments. -/
theorem zero_extent_behavior_witness :
    Audio.whisperLazyParse 0 0 none (fun _ _ => Except.error "E") = [] :=
  (zero_extent_behavior 1 0 none (fun _ _ => Except.error "E")
    (fun _ _ => ⟨"", "", [], 0⟩) ⟨"", "", [], 0⟩ .text 1 (by decide)).2.2.1

/-- C10: `_get_response` of `layout_analysis_parsers.py`. A
`requests.RequestException` from the POST (or `raise_for_status`) is
caught and only printed, after which `return result` runs with `result`
never assigned, so the call ends in an unbound-local error — it neither
returns a response nor retries nor raises a typed error; a JSON decode
failure is re-raised as `ValueError`; and the `finally` block closes the
posted document handle on every path. -/
theorem get_response_swallows_request_exception :
    (∀ m, UPL.getResponse (.reqException m) =
      { outcome := .unboundLocalError, fileClosed := true,
        logs := ["Request Exception: " ++ m] }) ∧
    (∀ m, UPL.getResponse (.jsonDecodeError m) =
      { outcome := .valueError ("Failed to decode JSON response: " ++ m),
        fileClosed := true, logs := ["JSON Decode Error: " ++ m] }) ∧
    (∀ post, (UPL.getResponse post).fileClosed = true) := by
  refine ⟨fun m => rfl, fun m => rfl, fun post => ?_⟩
  cases post <;> rfl

/-! ### `_page_document` grouping -/

namespace LA

theorem le_foldr_max (l : List ℕ) : ∀ x ∈ l, x ≤ l.foldr max 0 := by
  induction l with
  | nil => intro x hx; cases hx
  | cons a as ih =>
    intro x hx
    rcases List.mem_cons.mp hx with rfl | hx
    · exact le_max_left _ _
    · exact le_trans (ih x hx) (le_max_right _ _)

theorem mem_sortedDistinct (l : List ℕ) (x : ℕ) : x ∈ sortedDistinct l ↔ x ∈ l := by
  unfold sortedDistinct
  rw [List.mem_filter]
  constructor
  · intro h
    exact of_decide_eq_true h.2
  · intro h
    refine ⟨List.mem_range.mpr ?_, decide_eq_true h⟩
    have := le_foldr_max l x h
    omega

theorem sortedDistinct_sorted (l : List ℕ) : (sortedDistinct l).Sorted (· < ·) :=
  (List.pairwise_lt_range _).sublist (List.filter_sublist _)

theorem sortedDistinct_nodup (l : List ℕ) : (sortedDistinct l).Nodup :=
  (sortedDistinct_sorted l).imp Nat.ne_of_lt

theorem filter_head_page (els : List Element) (p : ℕ)
    (hp : p ∈ els.map (·.page)) :
    ((els.filter fun e => decide (e.page = p)).head?.elim 0 (·.page)) = p := by
  obtain ⟨e, he, hep⟩ := List.mem_map.mp hp
  have hef : e ∈ els.filter fun e => decide (e.page = p) :=
    List.mem_filter.mpr ⟨he, decide_eq_true hep⟩
  rcases hf : els.filter fun e => decide (e.page = p) with _ | ⟨g, gs⟩
  · rw [hf] at hef; cases hef
  · have hg : g ∈ els.filter fun e => decide (e.page = p) := by
      rw [hf]; exact List.mem_cons_self _ _
    have hgp : g.page = p := of_decide_eq_true (List.mem_filter.mp hg).2
    rw [hf]
    exact hgp

/-- `_page_document` with the `group[0]["page"]` metadata resolved: the
group of page `p` is nonempty and its first element's page is `p`. -/
theorem pageDocument_eq (els : List Element) (ot : OutputType) (sp : String) :
    pageDocument els ot sp =
      (sortedDistinct (els.map (·.page))).map fun p =>
        { content := String.intercalate " "
            ((els.filter fun e => decide (e.page = p)).map (·.parsed ot)),
          page := some p, rtype := ot, split := sp } := by
  unfold pageDocument
  apply List.map_congr_left
  intro p hp
  have hp2 : p ∈ els.map (·.page) := (mem_sortedDistinct _ _).mp hp
  have hh := filter_head_page els p hp2
  simp only [hh]

end LA

/-- C5: "page" assembly. The assembler emits one record per distinct page
number of the input elements, pages strictly ascending without
duplicates; the record of page `p` contains the parsed outputs of the
elements of page `p`, in input order, joined by a single space, and
carries `p` as its page metadata; the pages appearing in the output are
exactly the pages present in the input. -/
theorem page_mode_grouping (els : List LA.Element) (ot : LA.OutputType) (sp : String) :
    LA.pageDocument els ot sp =
      ((LA.sortedDistinct (els.map (·.page))).map fun p =>
        { content := String.intercalate " "
            ((els.filter fun e => decide (e.page = p)).map (·.parsed ot)),
          page := some p, rtype := ot, split := sp }) ∧
    (LA.pageDocument els ot sp).map (·.page) =
      (LA.sortedDistinct (els.map (·.page))).map some ∧
    (LA.sortedDistinct (els.map (·.page))).Sorted (· < ·) ∧
    (LA.sortedDistinct (els.map (·.page))).Nodup ∧
    (∀ p, p ∈ LA.sortedDistinct (els.map (·.page)) ↔ p ∈ els.map (·.page)) := by
  refine ⟨LA.pageDocument_eq els ot sp, ?_, LA.sortedDistinct_sorted _,
    LA.sortedDistinct_nodup _, fun p => LA.mem_sortedDistinct _ p⟩
  rw [LA.pageDocument_eq els ot sp, List.map_map]
  rfl

/-! ### Batch-size refinement: `LayoutAnalysis.load` vs `lazy_load` -/

/-- Pages copied into the chunk by `_split_and_request(full_docs, s, b)`:
`insert_pdf(from_page=s, to_page=s+b-1)` clamps to the document's last
page, so the chunk holds the pages `[s, min (s+b) n)` of the `n`-page
document. -/
def chunkPages (n s b : ℕ) : List ℕ := List.range' s (min b (n - s))

/-- Python `enumerate` with explicit start index. -/
def pyEnum {α : Type} : ℕ → List α → List (ℕ × α)
  | _, [] => []
  | k, a :: as => (k, a) :: pyEnum (k + 1) as

/-- `parse_output` on a (text, html) content pair. -/
def parsePair (th : String × String) : LA.OutputType → String
  | .text => th.1
  | .html => th.2

/-- Modelled from the spec: the deterministic remote layout-analysis
backend, an external collaborator specified only at its interface
boundary. `truth p` lists the (text, html) contents of the elements of
absolute page `p`, in backend order. The backend receives only the
materialized chunk, so each returned element's `page` is 1-based relative
to the chunk, element `id`s are numbered sequentially within the
response, and `billed_pages` is the chunk's page count. -/
def mkBackend (truth : ℕ → List (String × String)) (n : ℕ) : ℕ → ℕ → LA.Response :=
  fun s b =>
    let raw := (pyEnum 0 (chunkPages n s b)).flatMap fun ip =>
      (truth ip.2).map fun th =>
        ({ page := ip.1 + 1, id := 0, text := th.1, html := th.2 } : LA.Element)
    { text := String.join (raw.map (·.text)),
      html := String.join (raw.map (·.html)),
      elements := (pyEnum 0 raw).map fun ie => { ie.2 with id := ie.1 },
      billed_pages := (chunkPages n s b).length }

/-- The contents of the yielded records, in order (empty on a raise). -/
def outputContents (r : LA.RunResult) : List String :=
  match r.output with
  | .ok recs => recs.map (·.content)
  | .error _ => []

theorem pyEnum_fst_ge {α : Type} :
    ∀ (l : List α) (k : ℕ), ∀ x ∈ pyEnum k l, k ≤ x.1 := by
  intro l
  induction l with
  | nil => intro k x hx; cases hx
  | cons a as ih =>
    intro k x hx
    rcases List.mem_cons.mp hx with rfl | hx
    · exact le_refl k
    · have := ih (k + 1) x hx
      omega

theorem pyEnum_pairwise_fst {α : Type} :
    ∀ (l : List α) (k : ℕ), (pyEnum k l).Pairwise fun a b => a.1 < b.1 := by
  intro l
  induction l with
  | nil => intro k; exact List.Pairwise.nil
  | cons a as ih =>
    intro k
    refine List.Pairwise.cons ?_ (ih (k + 1))
    intro x hx
    have := pyEnum_fst_ge as (k + 1) x hx
    omega

theorem pyEnum_map_snd {α β : Type} (g : α → β) :
    ∀ (l : List α) (k : ℕ), (pyEnum k l).map (fun ia => g ia.2) = l.map g := by
  intro l
  induction l with
  | nil => intro k; rfl
  | cons a as ih =>
    intro k
    show (g a) :: (pyEnum (k + 1) as).map (fun ia => g ia.2) = g a :: as.map g
    rw [ih (k + 1)]

theorem pyEnum_flatMap_snd {α β : Type} (g : α → List β) :
    ∀ (l : List α) (k : ℕ), (pyEnum k l).flatMap (fun ia => g ia.2) = l.flatMap g := by
  intro l
  induction l with
  | nil => intro k; rfl
  | cons a as ih =>
    intro k
    show g a ++ (pyEnum (k + 1) as).flatMap (fun ia => g ia.2) = g a ++ as.flatMap g
    rw [ih (k + 1)]

theorem pyEnum_filterMap_snd {α β : Type} (g : α → Option β) :
    ∀ (l : List α) (k : ℕ), (pyEnum k l).filterMap (fun ia => g ia.2) = l.filterMap g := by
  intro l
  induction l with
  | nil => intro k; rfl
  | cons a as ih =>
    intro k
    show List.filterMap _ ((k, a) :: pyEnum (k + 1) as) = List.filterMap g (a :: as)
    rw [List.filterMap_cons, List.filterMap_cons]
    cases g a with
    | none => exact ih (k + 1)
    | some b => rw [ih (k + 1)]

theorem sorted_lt_eq_of_mem_iff :
    ∀ {l₁ l₂ : List ℕ}, l₁.Sorted (· < ·) → l₂.Sorted (· < ·) →
      (∀ x, x ∈ l₁ ↔ x ∈ l₂) → l₁ = l₂ := by
  intro l₁
  induction l₁ with
  | nil =>
    intro l₂ _ _ hm
    cases l₂ with
    | nil => rfl
    | cons b bs => exact absurd ((hm b).mpr (List.mem_cons_self b bs)) (List.not_mem_nil b)
  | cons a as ih =>
    intro l₂ hs₁ hs₂ hm
    cases l₂ with
    | nil => exact absurd ((hm a).mp (List.mem_cons_self a as)) (List.not_mem_nil a)
    | cons b bs =>
      have h₁ := List.pairwise_cons.mp hs₁
      have h₂ := List.pairwise_cons.mp hs₂
      have hab : a = b := by
        by_contra hne
        have ha : a ∈ b :: bs := (hm a).mp (List.mem_cons_self a as)
        have hb : b ∈ a :: as := (hm b).mpr (List.mem_cons_self b bs)
        rcases List.mem_cons.mp ha with h | h
        · exact hne h
        · rcases List.mem_cons.mp hb with h2 | h2
          · exact hne h2.symm
          · have h3 : b < a := h₂.1 a h
            have h4 : a < b := h₁.1 b h2
            omega
      subst hab
      have htail : ∀ x, x ∈ as ↔ x ∈ bs := by
        intro x
        constructor
        · intro hx
          have hx₂ : x ∈ a :: bs := (hm x).mp (List.mem_cons_of_mem a hx)
          rcases List.mem_cons.mp hx₂ with rfl | h
          · exact absurd (h₁.1 x hx) (lt_irrefl x)
          · exact h
        · intro hx
          have hx₁ : x ∈ a :: as := (hm x).mpr (List.mem_cons_of_mem a hx)
          rcases List.mem_cons.mp hx₁ with rfl | h
          · exact absurd (h₂.1 x hx) (lt_irrefl x)
          · exact h
      exact congrArg (List.cons a) (ih h₁.2 h₂.2 htail)

theorem parsed_setId (e : LA.Element) (i : ℕ) (ot : LA.OutputType) :
    ({ e with id := i } : LA.Element).parsed ot = e.parsed ot := by
  cases ot <;> rfl

theorem setId_map_page (l : List LA.Element) (k : ℕ) :
    (((pyEnum k l).map fun ie => { ie.2 with id := ie.1 }).map (·.page)) =
      l.map (·.page) := by
  rw [List.map_map]
  exact pyEnum_map_snd (fun e => e.page) l k

theorem setId_map_parsed (ot : LA.OutputType) (l : List LA.Element) (k : ℕ) :
    (((pyEnum k l).map fun ie => { ie.2 with id := ie.1 }).map (·.parsed ot)) =
      l.map (·.parsed ot) := by
  rw [List.map_map]
  have h : ∀ ie : ℕ × LA.Element,
      (((fun e => e.parsed ot) ∘ fun ie : ℕ × LA.Element => { ie.2 with id := ie.1 }) ie) =
        ie.2.parsed ot := by
    intro ie
    exact parsed_setId ie.2 ie.1 ot
  rw [List.map_congr_left fun ie _ => h ie]
  exact pyEnum_map_snd (fun e => e.parsed ot) l k

theorem setId_filter_map_parsed (ot : LA.OutputType) (p : ℕ) :
    ∀ (l : List LA.Element) (k : ℕ),
      ((((pyEnum k l).map fun ie => { ie.2 with id := ie.1 }).filter
          fun e => decide (e.page = p)).map (·.parsed ot)) =
        ((l.filter fun e => decide (e.page = p)).map (·.parsed ot)) := by
  intro l
  induction l with
  | nil => intro k; rfl
  | cons a as ih =>
    intro k
    show ((({ a with id := k } : LA.Element) ::
        ((pyEnum (k + 1) as).map fun ie => { ie.2 with id := ie.1 })).filter
          fun e => decide (e.page = p)).map (·.parsed ot) = _
    by_cases hap : a.page = p
    · rw [List.filter_cons_of_pos (by simpa using hap),
        List.filter_cons_of_pos (by simpa using hap)]
      simp only [List.map_cons, parsed_setId]
      rw [ih (k + 1)]
    · rw [List.filter_cons_of_neg (by simpa using hap),
        List.filter_cons_of_neg (by simpa using hap)]
      exact ih (k + 1)

/-- `_page_document` only reads `page` and `text`/`html`, so renumbering
element ids (as the backend does per response) does not change it. -/
theorem pageDocument_setId (ot : LA.OutputType) (sp : String)
    (l : List LA.Element) (k : ℕ) :
    LA.pageDocument ((pyEnum k l).map fun ie => { ie.2 with id := ie.1 }) ot sp =
      LA.pageDocument l ot sp := by
  rw [LA.pageDocument_eq, LA.pageDocument_eq, setId_map_page]
  apply List.map_congr_left
  intro p hp
  rw [setId_filter_map_parsed ot p l k]

theorem flatMap_filter_group :
    ∀ (groups : List (ℕ × List LA.Element)),
      groups.Pairwise (fun g h => g.1 ≠ h.1) →
      (∀ g ∈ groups, ∀ e ∈ g.2, e.page = g.1) →
      ∀ g ∈ groups,
        ((groups.flatMap Prod.snd).filter fun e => decide (e.page = g.1)) = g.2 := by
  intro groups
  induction groups with
  | nil => intro _ _ g hg; cases hg
  | cons h t ih =>
    intro hpair hmem g hg
    have hp := List.pairwise_cons.mp hpair
    rw [List.flatMap_cons, List.filter_append]
    rcases List.mem_cons.mp hg with rfl | hgt
    · have h1 : g.2.filter (fun e => decide (e.page = g.1)) = g.2 := by
        apply List.filter_eq_self.mpr
        intro e he
        exact decide_eq_true (hmem g (List.mem_cons_self _ _) e he)
      have h2 : (t.flatMap Prod.snd).filter (fun e => decide (e.page = g.1)) = [] := by
        rw [List.filter_eq_nil_iff]
        intro e he
        obtain ⟨g', hg', he'⟩ := List.mem_flatMap.mp he
        have hpage : e.page = g'.1 := hmem g' (List.mem_cons_of_mem _ hg') e he'
        have hne : g.1 ≠ g'.1 := hp.1 g' hg'
        simp [hpage]
        omega
      rw [h1, h2, List.append_nil]
    · have h1 : h.2.filter (fun e => decide (e.page = g.1)) = [] := by
        rw [List.filter_eq_nil_iff]
        intro e he
        have hpage : e.page = h.1 := hmem h (List.mem_cons_self _ _) e he
        have hne : h.1 ≠ g.1 := hp.1 g hgt
        simp [hpage]
        omega
      rw [h1, List.nil_append]
      exact ih hp.2 (fun g' hg' => hmem g' (List.mem_cons_of_mem _ hg')) g hgt

theorem filterMap_if_fst {β : Type} :
    ∀ (groups : List (ℕ × β)) (P : β → Bool),
      (groups.filterMap fun g => if P g.2 then none else some g.1) =
        (groups.filter fun g => !(P g.2)).map Prod.fst := by
  intro groups P
  induction groups with
  | nil => rfl
  | cons h t ih =>
    rw [List.filterMap_cons, List.filter_cons]
    cases hP : P h.2 with
    | true => simpa using ih
    | false => simpa using ih

/-- `_page_document` applied to a concatenation of page groups whose
keys strictly increase and tag their elements: one record per nonempty
group, in order. -/
theorem pageDocument_grouped (ot : LA.OutputType) (sp : String)
    (groups : List (ℕ × List LA.Element))
    (hpair : groups.Pairwise fun g h => g.1 < h.1)
    (hmem : ∀ g ∈ groups, ∀ e ∈ g.2, e.page = g.1) :
    LA.pageDocument (groups.flatMap Prod.snd) ot sp =
      groups.filterMap fun g =>
        if g.2.isEmpty then none
        else some { content := String.intercalate " " (g.2.map (·.parsed ot)),
                    page := some g.1, rtype := ot, split := sp } := by
  rw [LA.pageDocument_eq]
  have hpairne : groups.Pairwise fun g h => g.1 ≠ h.1 :=
    hpair.imp fun hlt => Nat.ne_of_lt hlt
  have hA : LA.sortedDistinct ((groups.flatMap Prod.snd).map (·.page)) =
      groups.filterMap fun g => if g.2.isEmpty then none else some g.1 := by
    rw [filterMap_if_fst groups (List.isEmpty ·)]
    apply sorted_lt_eq_of_mem_iff (LA.sortedDistinct_sorted _) ?_ ?_
    · exact List.pairwise_map.mpr (hpair.sublist (List.filter_sublist _))
    · intro x
      rw [LA.mem_sortedDistinct]
      constructor
      · intro hx
        obtain ⟨e, he, hex⟩ := List.mem_map.mp hx
        obtain ⟨g, hg, heg⟩ := List.mem_flatMap.mp he
        refine List.mem_map.mpr ⟨g, List.mem_filter.mpr ⟨hg, ?_⟩, ?_⟩
        · have : g.2 ≠ [] := fun hnil => by rw [hnil] at heg; cases heg
          simpa [List.isEmpty_iff] using this
        · rw [← hex]
          exact (hmem g hg e heg).symm
      · intro hx
        obtain ⟨g, hgf, hgx⟩ := List.mem_map.mp hx
        have hg := List.mem_filter.mp hgf
        have hne : g.2 ≠ [] := by
          have := hg.2
          simpa [List.isEmpty_iff] using this
        obtain ⟨e, he⟩ := List.exists_mem_of_ne_nil g.2 hne
        refine List.mem_map.mpr ⟨e, List.mem_flatMap.mpr ⟨g, hg.1, he⟩, ?_⟩
        rw [hmem g hg.1 e he, hgx]
  rw [hA, List.map_filterMap]
  apply List.filterMap_congr
  intro g hg
  cases hge : g.2.isEmpty with
  | true => simp [hge]
  | false =>
    simp only [hge, Bool.false_eq_true, if_false, Option.map_some']
    rw [flatMap_filter_group groups hpairne hmem g hg]

/-- The elements returned by the modelled backend for one chunk, with
their ids renumbered, produce exactly one page record per
non-elementless chunk page, in order, keyed by the 1-based
chunk-relative page number. -/
theorem pageDocument_chunk (truth : ℕ → List (String × String)) (n s b : ℕ)
    (ot : LA.OutputType) (sp : String) :
    LA.pageDocument (mkBackend truth n s b).elements ot sp =
      (pyEnum 0 (chunkPages n s b)).filterMap fun ip =>
        if (truth ip.2).isEmpty then none
        else some { content := String.intercalate " "
                      ((truth ip.2).map (parsePair · ot)),
                    page := some (ip.1 + 1), rtype := ot, split := sp } := by
  show LA.pageDocument ((pyEnum 0 ((pyEnum 0 (chunkPages n s b)).flatMap fun ip =>
      (truth ip.2).map fun th =>
        ({ page := ip.1 + 1, id := 0, text := th.1, html := th.2 } : LA.Element))).map
          fun ie => { ie.2 with id := ie.1 }) ot sp = _
  rw [pageDocument_setId]
  have hflat : ((pyEnum 0 (chunkPages n s b)).flatMap fun ip =>
      (truth ip.2).map fun th =>
        ({ page := ip.1 + 1, id := 0, text := th.1, html := th.2 } : LA.Element)) =
      ((pyEnum 0 (chunkPages n s b)).map fun ip =>
        (ip.1 + 1, (truth ip.2).map fun th =>
          ({ page := ip.1 + 1, id := 0, text := th.1, html := th.2 } : LA.Element))).flatMap
        Prod.snd := by
    rw [List.flatMap_map]
  rw [hflat, pageDocument_grouped ot sp _ ?_ ?_, List.filterMap_map]
  · apply List.filterMap_congr
    intro ip _
    cases hte : (truth ip.2).isEmpty with
    | true =>
      have h0 : (truth ip.2) = [] := List.isEmpty_iff.mp hte
      simp [h0]
    | false =>
      have hne : (truth ip.2) ≠ [] := by
        intro hnil
        rw [hnil] at hte
        cases hte
      have hmape : ((truth ip.2).map fun th =>
          ({ page := ip.1 + 1, id := 0, text := th.1, html := th.2 } : LA.Element)).isEmpty =
            false := by
        cases htt : truth ip.2 with
        | nil => exact absurd htt hne
        | cons x xs => rfl
      simp only [Function.comp_apply, hmape, hte, Bool.false_eq_true, if_false]
      have hc : (((truth ip.2).map fun th =>
          ({ page := ip.1 + 1, id := 0, text := th.1, html := th.2 } : LA.Element)).map
            (·.parsed ot)) = (truth ip.2).map (parsePair · ot) := by
        rw [List.map_map]
        apply List.map_congr_left
        intro th _
        cases ot <;> rfl
      rw [hc]
  · refine List.pairwise_map.mpr ((pyEnum_pairwise_fst _ 0).imp ?_)
    intro a b hab
    omega
  · intro g hg e he
    obtain ⟨ip, _, hip⟩ := List.mem_map.mp hg
    rw [← hip] at he ⊢
    obtain ⟨th, _, hth⟩ := List.mem_map.mp he
    rw [← hth]

/-- Per-chunk element-mode record contents: the parsed outputs of the
chunk's pages' elements, in order. -/
theorem element_chunk_contents (truth : ℕ → List (String × String)) (n s b : ℕ)
    (ot : LA.OutputType) (sp : String) :
    (((mkBackend truth n s b).elements.map fun e =>
        LA.elementDocument e ot sp).map (·.content)) =
      (chunkPages n s b).flatMap fun p => (truth p).map (parsePair · ot) := by
  rw [List.map_map]
  have h1 : (((fun r : LA.Record => r.content) ∘ fun e => LA.elementDocument e ot sp)) =
      fun e : LA.Element => e.parsed ot := rfl
  rw [h1]
  show ((pyEnum 0 ((pyEnum 0 (chunkPages n s b)).flatMap fun ip =>
      (truth ip.2).map fun th =>
        ({ page := ip.1 + 1, id := 0, text := th.1, html := th.2 } : LA.Element))).map
          fun ie => { ie.2 with id := ie.1 }).map (fun e => e.parsed ot) = _
  rw [setId_map_parsed, List.map_flatMap]
  have h2 : (fun ip : ℕ × ℕ => (((truth ip.2).map fun th =>
      ({ page := ip.1 + 1, id := 0, text := th.1, html := th.2 } : LA.Element)).map
        fun e => e.parsed ot)) =
      fun ip : ℕ × ℕ => (truth ip.2).map (parsePair · ot) := by
    funext ip
    rw [List.map_map]
    apply List.map_congr_left
    intro th _
    cases ot <;> rfl
  rw [h2]
  exact pyEnum_flatMap_snd (fun p => (truth p).map (parsePair · ot)) (chunkPages n s b) 0

theorem loopStartsGo_chunk_cover (n b : ℕ) (hb : 0 < b) :
    ∀ fuel s, n - s ≤ fuel →
      (loopStartsGo n b fuel s).flatMap (fun st => List.range' st (min b (n - st))) =
        List.range' s (n - s) := by
  intro fuel
  induction fuel with
  | zero =>
    intro s hs
    have h1 : n - s = 0 := by omega
    rw [h1]
    rfl
  | succ fuel ih =>
    intro s hs
    by_cases hns : n ≤ s
    · have h1 : n - s = 0 := by omega
      rw [h1]
      simp only [loopStartsGo, if_pos hns]
      rfl
    · simp only [loopStartsGo, if_neg hns]
      rw [List.flatMap_cons, ih (s + b) (by omega)]
      by_cases hbs : b ≤ n - s
      · have hmin : min b (n - s) = b := by omega
        rw [hmin]
        have happ := List.range'_append s b (n - (s + b)) 1
        rw [Nat.one_mul] at happ
        rw [happ]
        congr 1
        omega
      · have hmin : min b (n - s) = n - s := by omega
        have h2 : n - (s + b) = 0 := by omega
        rw [hmin, h2]
        show List.range' s (n - s) ++ [] = List.range' s (n - s)
        rw [List.append_nil]

/-- The page loop's chunks partition the document's pages. -/
theorem loopStarts_chunk_cover (n b : ℕ) (hb : 0 < b) :
    (loopStarts n b).flatMap (fun s => chunkPages n s b) = List.range n := by
  unfold loopStarts chunkPages
  rw [loopStartsGo_chunk_cover n b hb n 0 (by omega), List.range_eq_range' n]
  congr 1

theorem flatMap_flatMap_comp {α β γ : Type} (l : List α) (f : α → List β)
    (h : β → List γ) :
    l.flatMap (fun a => (f a).flatMap h) = (l.flatMap f).flatMap h := by
  induction l with
  | nil => rfl
  | cons a as ih => rw [List.flatMap_cons, List.flatMap_cons, List.flatMap_append, ih]

theorem flatMap_filterMap_comp {α β γ : Type} (l : List α) (f : α → List β)
    (h : β → Option γ) :
    l.flatMap (fun a => (f a).filterMap h) = (l.flatMap f).filterMap h := by
  induction l with
  | nil => rfl
  | cons a as ih => rw [List.flatMap_cons, List.flatMap_cons, List.filterMap_append, ih]

/-- The element-mode PDF run of `parsers.py` in closed form. -/
theorem lazyParse_element_run (n : ℕ) (backend : ℕ → ℕ → LA.Response)
    (fb : LA.Response) (ot : LA.OutputType) (b : ℕ) :
    UP.lazyParse ⟨true, n⟩ backend fb ot "element" b =
      { calls := (loopStarts n b).length,
        output := .ok ((loopStarts n b).flatMap fun s =>
          (backend s b).elements.map fun e => LA.elementDocument e ot "element") } := by
  unfold UP.lazyParse
  rw [if_neg (by decide), if_pos rfl]
  rfl

/-- The page-mode PDF run of `parsers.py` in closed form. -/
theorem lazyParse_page_run (n : ℕ) (backend : ℕ → ℕ → LA.Response)
    (fb : LA.Response) (ot : LA.OutputType) (b : ℕ) :
    UP.lazyParse ⟨true, n⟩ backend fb ot "page" b =
      { calls := (loopStarts n b).length,
        output := .ok ((loopStarts n b).flatMap fun s =>
          LA.pageDocument (backend s b).elements ot "page") } := by
  unfold UP.lazyParse
  rw [if_neg (by decide), if_neg (by decide), if_pos rfl]
  rfl

/-- Element-mode record contents are the per-page truth contents in page
order, independent of the batch size. -/
theorem element_mode_contents (truth : ℕ → List (String × String)) (n b : ℕ)
    (hb : 0 < b) (fb : LA.Response) (ot : LA.OutputType) :
    outputContents (UP.lazyParse ⟨true, n⟩ (mkBackend truth n) fb ot "element" b) =
      (List.range n).flatMap fun p => (truth p).map (parsePair · ot) := by
  rw [lazyParse_element_run]
  show ((loopStarts n b).flatMap fun s =>
      (mkBackend truth n s b).elements.map fun e =>
        LA.elementDocument e ot "element").map (·.content) = _
  rw [List.map_flatMap]
  rw [List.flatMap_congr fun s _ => element_chunk_contents truth n s b ot "element"]
  rw [flatMap_flatMap_comp, loopStarts_chunk_cover n b hb]

/-- Page-mode record contents are the per-page joined truth contents for
every page with at least one element, in page order, independent of the
batch size. -/
theorem page_mode_contents (truth : ℕ → List (String × String)) (n b : ℕ)
    (hb : 0 < b) (fb : LA.Response) (ot : LA.OutputType) :
    outputContents (UP.lazyParse ⟨true, n⟩ (mkBackend truth n) fb ot "page" b) =
      (List.range n).filterMap fun p =>
        if (truth p).isEmpty then none
        else some (String.intercalate " " ((truth p).map (parsePair · ot))) := by
  rw [lazyParse_page_run]
  show ((loopStarts n b).flatMap fun s =>
      LA.pageDocument (mkBackend truth n s b).elements ot "page").map (·.content) = _
  rw [List.map_flatMap]
  have hchunk : ∀ s ∈ loopStarts n b,
      ((LA.pageDocument (mkBackend truth n s b).elements ot "page").map (·.content)) =
        (chunkPages n s b).filterMap fun p =>
          if (truth p).isEmpty then none
          else some (String.intercalate " " ((truth p).map (parsePair · ot))) := by
    intro s _
    rw [pageDocument_chunk truth n s b ot "page", List.map_filterMap]
    have hfun : ∀ ip : ℕ × ℕ,
        Option.map (fun r : LA.Record => r.content)
          (if (truth ip.2).isEmpty then none
           else some { content := String.intercalate " "
                        ((truth ip.2).map (parsePair · ot)),
                       page := some (ip.1 + 1), rtype := ot, split := "page" }) =
          (if (truth ip.2).isEmpty then none
           else some (String.intercalate " " ((truth ip.2).map (parsePair · ot)))) := by
      intro ip
      cases hte : (truth ip.2).isEmpty with
      | true => rfl
      | false => rfl
    rw [List.filterMap_congr fun ip _ => hfun ip]
    exact pyEnum_filterMap_snd (fun p =>
      if (truth p).isEmpty then none
      else some (String.intercalate " " ((truth p).map (parsePair · ot))))
      (chunkPages n s b) 0
  rw [List.flatMap_congr hchunk]
  rw [flatMap_filterMap_comp (loopStarts n b) (fun s => chunkPages n s b)
    (fun p => if (truth p).isEmpty then none
      else some (String.intercalate " " ((truth p).map (parsePair · ot))))]
  rw [loopStarts_chunk_cover n b hb]

/-- Per-page element contents used by `load_lazy_load_metadata_cex`:
page 0 holds one element ("a"/"A"), page 1 one element ("b"/"B"). -/
def cexTruth : ℕ → List (String × String) := fun p =>
  if p = 0 then [("a", "A")] else if p = 1 then [("b", "B")] else []

/-- C9 counterexample: on a 2-page PDF with the chunk-relative backend,
`load()` (one call for pages 0-1) reports element pages 1 and 2 and ids
0 and 1, while `lazy_load()` (two one-page calls) reports page 1 and id 0
for both elements, so the record sequences differ. -/
theorem load_lazy_load_metadata_cex :
    LayoutAnalysis.load ⟨true, 2⟩ (mkBackend cexTruth 2) ⟨"", "", [], 0⟩
        .text "element" ≠
      LayoutAnalysis.lazyLoad ⟨true, 2⟩ (mkBackend cexTruth 2) ⟨"", "", [], 0⟩
        .text "element" := by
  decide

/-- C9 (amended): with a deterministic backend that reports
chunk-relative positions (it only ever sees the materialized chunk),
`LayoutAnalysis.load()` (page batch 10) and `LayoutAnalysis.lazy_load()`
(parser default batch 1) produce the same sequence of record contents in
the same order for split "element" and "page", while issuing `⌈n/10⌉`
versus `n` remote calls; the records themselves are not equal — their
`page` (and element-mode `id`) metadata is chunk-relative and differs
between the two batch sizes (`load_lazy_load_metadata_cex`). -/
theorem load_lazy_load_content_agreement (n : ℕ)
    (truth : ℕ → List (String × String)) (fb : LA.Response) (ot : LA.OutputType) :
    outputContents (LayoutAnalysis.load ⟨true, n⟩ (mkBackend truth n) fb ot "element") =
      outputContents (LayoutAnalysis.lazyLoad ⟨true, n⟩ (mkBackend truth n) fb ot "element") ∧
    outputContents (LayoutAnalysis.load ⟨true, n⟩ (mkBackend truth n) fb ot "page") =
      outputContents (LayoutAnalysis.lazyLoad ⟨true, n⟩ (mkBackend truth n) fb ot "page") ∧
    (LayoutAnalysis.load ⟨true, n⟩ (mkBackend truth n) fb ot "element").calls =
      (n + 9) / 10 ∧
    (LayoutAnalysis.lazyLoad ⟨true, n⟩ (mkBackend truth n) fb ot "element").calls = n := by
  refine ⟨?_, ?_, ?_, ?_⟩
  · show outputContents (UP.lazyParse ⟨true, n⟩ (mkBackend truth n) fb ot "element" 10) =
      outputContents (UP.lazyParse ⟨true, n⟩ (mkBackend truth n) fb ot "element" 1)
    rw [element_mode_contents truth n 10 (by omega) fb ot,
      element_mode_contents truth n 1 (by omega) fb ot]
  · show outputContents (UP.lazyParse ⟨true, n⟩ (mkBackend truth n) fb ot "page" 10) =
      outputContents (UP.lazyParse ⟨true, n⟩ (mkBackend truth n) fb ot "page" 1)
    rw [page_mode_contents truth n 10 (by omega) fb ot,
      page_mode_contents truth n 1 (by omega) fb ot]
  · show (UP.lazyParse ⟨true, n⟩ (mkBackend truth n) fb ot "element" 10).calls = _
    rw [lazyParse_element_run]
    show (loopStarts n 10).length = _
    rw [loopStarts_eq n 10 (by omega), List.length_map, List.length_range]
    omega
  · show (UP.lazyParse ⟨true, n⟩ (mkBackend truth n) fb ot "element" 1).calls = _
    rw [lazyParse_element_run]
    show (loopStarts n 1).length = _
    rw [loopStarts_eq n 1 (by omega), List.length_map, List.length_range]
    omega

end Spec2Proof
